import Mathlib

/-
Verification of the logchecklint analyzer core (pkg/analyzer/rules.go and
pkg/analyzer/analyzer.go) against its natural-language specification.

Modelling conventions.
A Go string is a byte sequence; every message handled by this analyzer comes
from a source literal, hence is valid UTF-8.  We model message strings as
List Char, the sequence of Unicode scalar values, which is exactly what a
Go range-over-string loop yields on valid UTF-8.  Where the Go code operates
on raw bytes (msg[0], len(msg), msg[1:]) we pass through an explicit UTF-8
encoding function (utf8Bytes / strBytes), so byte-level behaviour is
preserved.  Byte-level substring scans with pure-ASCII patterns (e.g.
strings.Contains(msg, "..")) coincide with scalar-level scans on valid
UTF-8, because no ASCII byte can occur inside a multi-byte encoding; they
are therefore modelled at the scalar level.

Go standard-library character classifiers are modelled as follows.
unicode.IsUpper is only ever applied to a single byte cast to a rune
(value < 0x100); on that Latin-1 range it is modelled exactly.
unicode.IsSpace is modelled exactly (the White_Space set is finite).
unicode.IsPrint is modelled exactly on the Latin-1 range; for code points
at 0x100 and above Go consults its category tables (letters, marks,
numbers, punctuation, symbols) and this model abstracts that lookup as
true.  No theorem below depends on the value of goIsPrint at or above
0x100: the proofs either use it on concrete Latin-1 characters or treat it
as an opaque predicate.  strings.ToLower is modelled exactly on ASCII,
the only range on which any theorem below evaluates it; above ASCII the
model leaves characters unchanged and no theorem depends on that range.
-/

namespace Logchecklint

/-- UTF-8 encoding of one Unicode scalar value, as a list of byte values. -/
def utf8Bytes (c : Char) : List Nat :=
  let n := c.toNat
  if n < 0x80 then [n]
  else if n < 0x800 then [0xC0 + n / 64, 0x80 + n % 64]
  else if n < 0x10000 then [0xE0 + n / 4096, 0x80 + n / 64 % 64, 0x80 + n % 64]
  else [0xF0 + n / 262144, 0x80 + n / 4096 % 64, 0x80 + n / 64 % 64, 0x80 + n % 64]

/-- Byte sequence underlying a Go string (UTF-8 encoding of its scalars). -/
def strBytes (s : List Char) : List Nat :=
  s.flatMap utf8Bytes

/-- First byte of a Go string, i.e. msg[0]; 0 on the empty string (the code
only indexes non-empty strings). -/
def firstByte (s : List Char) : Nat :=
  (strBytes s).headD 0

/-- Go unicode.IsUpper restricted to the Latin-1 range, the only range it is
applied to in this program (its argument is always a single byte cast to a
rune).  Uppercase Latin-1 code points are A-Z, 0xC0-0xD6 and 0xD8-0xDE. -/
def goIsUpperByte (r : Nat) : Bool :=
  (65 ≤ r && r ≤ 90) || (0xC0 ≤ r && r ≤ 0xD6) || (0xD8 ≤ r && r ≤ 0xDE)

/-- Go strings.Contains: sub occurs as a contiguous substring of s.
Contains(s, "") is true, as in Go. -/
def goContains (s sub : List Char) : Bool :=
  s.tails.any fun t => sub.isPrefixOf t

/-- Go strings.ToLower on one scalar, modelled exactly on ASCII (see the
modelling notes at the top of this file). -/
def goToLowerChar (c : Char) : Char :=
  if 65 ≤ c.toNat && c.toNat ≤ 90 then Char.ofNat (c.toNat + 32) else c

/-- Go strings.ToLower over a whole string. -/
def goToLower (s : List Char) : List Char :=
  s.map goToLowerChar

/-- Go unicode.IsSpace: the White_Space code points. -/
def goIsSpace (c : Char) : Bool :=
  let n := c.toNat
  n == 9 || n == 10 || n == 11 || n == 12 || n == 13 || n == 32 ||
  n == 0x85 || n == 0xA0 || n == 0x1680 || (0x2000 ≤ n && n ≤ 0x200A) ||
  n == 0x2028 || n == 0x2029 || n == 0x202F || n == 0x205F || n == 0x3000

/-- Go unicode.IsPrint, exact on the Latin-1 range (printable Latin-1 code
points are 0x20-0x7E and 0xA1-0xFF minus the soft hyphen 0xAD); code points
at 0x100 and above are abstracted as printable (see modelling notes). -/
def goIsPrint (c : Char) : Bool :=
  let n := c.toNat
  if n < 0x100 then
    (0x20 ≤ n && n ≤ 0x7E) || (0xA1 ≤ n && n ≤ 0xFF && n != 0xAD)
  else
    true

/-- Character class of the strings.Trim cutset used by the extractor: the
double quote and the backtick (code point 0x60). -/
def isQuoteChar (c : Char) : Bool :=
  c == '\"' || c.toNat == 0x60

/-- Go strings.Trim with the quote cutset: removes all leading and all
trailing quote or backtick characters. -/
def goTrim (s : List Char) : List Char :=
  ((s.dropWhile isQuoteChar).reverse.dropWhile isQuoteChar).reverse

/- Rule predicates, from pkg/analyzer/rules.go. -/

/-- Built-in sensitive keywords (rules.go lines 9-19). -/
def sensitiveKeywords : List (List Char) :=
  ["password".toList, "passwd".toList, "pwd".toList,
   "token".toList, "access_token".toList, "refresh_token".toList,
   "api_key".toList, "apikey".toList, "api-key".toList,
   "secret".toList, "secret_key".toList,
   "credential".toList, "credentials".toList,
   "private_key".toList, "privatekey".toList,
   "ssn".toList, "social_security".toList,
   "credit_card".toList, "creditcard".toList,
   "cvv".toList, "pin".toList]

/-- CheckLowercaseStart (rules.go lines 23-29): true when the rule is
violated.  The Go code casts the first byte of the message to a rune and
asks unicode.IsUpper. -/
def CheckLowercaseStart (msg : List Char) : Bool :=
  if msg = [] then false
  else goIsUpperByte (firstByte msg)

/-- CheckEnglishOnly (rules.go lines 33-40): violated when some scalar value
exceeds unicode.MaxASCII (0x7F). -/
def CheckEnglishOnly (msg : List Char) : Bool :=
  msg.any fun r => 0x7F < r.toNat

/-- The specialChars constant (rules.go line 43): characters forbidden in
log messages. -/
def specialChars : List Char :=
  "!@#$%^&*~\x60<>\x7b\x7d|\\".toList

/-- The isEmoji helper (rules.go lines 65-89): scalar lies in one of the
listed emoji ranges. -/
def isEmoji (r : Char) : Bool :=
  let n := r.toNat
  (0x1F600 ≤ n && n ≤ 0x1F64F) ||
  (0x1F300 ≤ n && n ≤ 0x1F5FF) ||
  (0x1F680 ≤ n && n ≤ 0x1F6FF) ||
  (0x1F1E0 ≤ n && n ≤ 0x1F1FF) ||
  (0x2600 ≤ n && n ≤ 0x26FF) ||
  (0x2700 ≤ n && n ≤ 0x27BF) ||
  (0xFE00 ≤ n && n ≤ 0xFE0F) ||
  (0x1F900 ≤ n && n ≤ 0x1F9FF) ||
  (0x1FA00 ≤ n && n ≤ 0x1FA6F) ||
  (0x1FA70 ≤ n && n ≤ 0x1FAFF) ||
  (0x200D ≤ n && n ≤ 0x200D) ||
  (0x231A ≤ n && n ≤ 0x231B) ||
  (0x23E9 ≤ n && n ≤ 0x23F3) ||
  (0x2934 ≤ n && n ≤ 0x2935) ||
  (0x25AA ≤ n && n ≤ 0x25AB) ||
  (0x25B6 ≤ n && n ≤ 0x25C0) ||
  (0x25FB ≤ n && n ≤ 0x25FE) ||
  (0x2614 ≤ n && n ≤ 0x2615) ||
  (0x2648 ≤ n && n ≤ 0x2653) ||
  (0x267F ≤ n && n ≤ 0x267F) ||
  (0x2702 ≤ n && n ≤ 0x27B0) ||
  (0x1F004 ≤ n && n ≤ 0x1F004) ||
  (0x1F0CF ≤ n && n ≤ 0x1F0CF)

/-- Repeated-punctuation pattern "!!". -/
def bangBangPat : List Char := ['!', '!']

/-- Repeated-punctuation pattern "??". -/
def quesQuesPat : List Char := ['?', '?']

/-- Repeated-punctuation pattern "...". -/
def dotsPat : List Char := ['.', '.', '.']

/-- CheckSpecialCharsOrEmoji (rules.go lines 47-62): violated when some
scalar is an emoji or a forbidden special character, or when the message
contains "!!", "??" or "...". -/
def CheckSpecialCharsOrEmoji (msg : List Char) : Bool :=
  (msg.any fun r => isEmoji r || specialChars.contains r) ||
  (goContains msg bangBangPat || goContains msg quesQuesPat ||
   goContains msg dotsPat)

/-- CheckSensitiveData (rules.go lines 93-101): violated when the lowercased
message contains some built-in keyword as a substring. -/
def CheckSensitiveData (msg : List Char) : Bool :=
  sensitiveKeywords.any fun keyword => goContains (goToLower msg) keyword

/-- CheckSensitiveDataWithCustomKeywords (rules.go lines 104-115): the
built-in check, plus the user-supplied keywords lowercased at match time. -/
def CheckSensitiveDataWithCustomKeywords (msg : List Char)
    (customKeywords : List (List Char)) : Bool :=
  CheckSensitiveData msg ||
  customKeywords.any fun keyword =>
    goContains (goToLower msg) (goToLower keyword)

/- The repair function cleanSpecialChars, from pkg/analyzer/analyzer.go
lines 279-299. -/

/-- Filtering pass of cleanSpecialChars: drop emoji, forbidden special
characters, and non-printable scalars other than the space. -/
def filterChars (s : List Char) : List Char :=
  s.filter fun r => !isEmoji r && !specialChars.contains r &&
    (goIsPrint r || r == ' ')

/-- One pass of strings.ReplaceAll(s, "...", "."): left-to-right,
non-overlapping. -/
def replaceEllipsis : List Char → List Char
  | [] => []
  | [c] => [c]
  | [c1, c2] => [c1, c2]
  | c1 :: c2 :: c3 :: rest =>
    if c1 = '.' ∧ c2 = '.' ∧ c3 = '.' then '.' :: replaceEllipsis rest
    else c1 :: replaceEllipsis (c2 :: c3 :: rest)

/-- The cleanSpecialChars rewrite loop, with an explicit fuel bound: Go
iterates ReplaceAll(result, "...", ".") while "..." still occurs.  Each
rewrite strictly shortens the string, so s.length iterations always
suffice (lemma collapseDotsAux_no_dots below); collapseDots therefore
computes exactly the loop's result. -/
def collapseDotsAux : Nat → List Char → List Char
  | 0, s => s
  | fuel + 1, s =>
    if goContains s dotsPat then collapseDotsAux fuel (replaceEllipsis s)
    else s

/-- The dot-collapsing loop of cleanSpecialChars. -/
def collapseDots (s : List Char) : List Char :=
  collapseDotsAux s.length s

/-- Go strings.TrimSpace: remove leading and trailing white space. -/
def trimSpace (s : List Char) : List Char :=
  ((s.dropWhile goIsSpace).reverse.dropWhile goIsSpace).reverse

/-- cleanSpecialChars (analyzer.go lines 279-299): filter out emoji, special
and non-printable characters, collapse runs of dots, trim white space. -/
def cleanSpecialChars (s : List Char) : List Char :=
  trimSpace (collapseDots (filterChars s))

/- Diagnostic orchestrator, from pkg/analyzer/analyzer.go. -/

/-- A text edit of a suggested fix (golang.org/x/tools analysis.TextEdit):
replace the bytes in the span from pos to stop by newText. -/
structure TextEdit where
  pos : Nat
  stop : Nat
  newText : List Nat
  deriving DecidableEq

/-- A suggested fix (analysis.SuggestedFix). -/
structure SuggestedFix where
  message : List Char
  edits : List TextEdit
  deriving DecidableEq

/-- A diagnostic (analysis.Diagnostic).  pass.Reportf produces a diagnostic
with empty category and no fixes. -/
structure Diagnostic where
  pos : Nat
  message : List Char
  category : List Char
  fixes : List SuggestedFix
  deriving DecidableEq

/-- The linter configuration (analyzer.go lines 15-26). -/
structure Config where
  DisableLowercaseCheck : Bool
  DisableEnglishCheck : Bool
  DisableSpecialCharCheck : Bool
  DisableSensitiveCheck : Bool
  CustomSensitiveKeywords : List (List Char)
  deriving DecidableEq

/-- The zero-value Config: all flags false, no custom keywords. -/
def zeroConfig : Config :=
  ⟨false, false, false, false, []⟩

/-- Diagnostic text of the LowercaseStart rule. -/
def lowercaseText : List Char :=
  "log message should start with a lowercase letter".toList

/-- Diagnostic text of the EnglishOnly rule. -/
def englishText : List Char :=
  "log message should be in English only".toList

/-- Diagnostic text of the SpecialOrEmoji rule. -/
def specialText : List Char :=
  "log message should not contain special characters or emoji".toList

/-- Diagnostic text of the SensitiveData rule. -/
def sensitiveText : List Char :=
  "log message may contain sensitive data".toList

/-- Category tag carried by the diagnostics built through pass.Report. -/
def categoryText : List Char :=
  "logchecklint".toList

/-- UTF-8 encoding of a code point below 0x800, used for Go's string(b)
conversion of a single byte (a byte value is at most 0xFF). -/
def utf8EncByte (n : Nat) : List Nat :=
  if n < 0x80 then [n] else [0xC0 + n / 64, 0x80 + n % 64]

/-- Go unicode's simple lower-case mapping on the Latin-1 range: A-Z and
the uppercase Latin-1 letters 0xC0-0xD6, 0xD8-0xDE map 32 code points up. -/
def lowerByteRune (n : Nat) : Nat :=
  if goIsUpperByte n then n + 32 else n

/-- Byte string strings.ToLower(string(msg[0])) + msg[1:] computed by
checkAndReport: the first byte is cast to a rune, lowercased, re-encoded in
UTF-8, and glued onto the remaining raw bytes. -/
def lowerFirstBytes : List Nat → List Nat
  | [] => []
  | b :: rest => utf8EncByte (lowerByteRune b) ++ rest

/-- checkAndReport (analyzer.go lines 200-250): evaluate the four rules in
order and emit their diagnostics; LowercaseStart and SpecialOrEmoji carry a
suggested fix spanning pos .. pos+len(msg)+2, the others are plain
Reportf diagnostics.  Byte value 34 is the double quote wrapped around the
replacement text. -/
def checkAndReport (msg : List Char) (pos : Nat) : List Diagnostic :=
  (if CheckLowercaseStart msg then
    [{ pos := pos, message := lowercaseText, category := categoryText,
       fixes := [{ message := "convert first letter to lowercase".toList,
                   edits := [{ pos := pos,
                               stop := pos + (strBytes msg).length + 2,
                               newText := 34 :: lowerFirstBytes (strBytes msg)
                                 ++ [34] }] }] }]
   else []) ++
  (if CheckEnglishOnly msg then
    [{ pos := pos, message := englishText, category := [], fixes := [] }]
   else []) ++
  (if CheckSpecialCharsOrEmoji msg then
    [{ pos := pos, message := specialText, category := categoryText,
       fixes := [{ message := "remove special characters and emoji".toList,
                   edits := [{ pos := pos,
                               stop := pos + (strBytes msg).length + 2,
                               newText := 34 :: strBytes (cleanSpecialChars msg)
                                 ++ [34] }] }] }]
   else []) ++
  (if CheckSensitiveData msg then
    [{ pos := pos, message := sensitiveText, category := [], fixes := [] }]
   else [])

/-- checkAndReportWithConfig (analyzer.go lines 252-276): each rule is
guarded by its disable flag; every diagnostic is a plain Reportf diagnostic
(no category, no suggested fix); the sensitive rule consults the custom
keyword list exactly when it is non-empty. -/
def checkAndReportWithConfig (msg : List Char) (pos : Nat) (cfg : Config) :
    List Diagnostic :=
  (if !cfg.DisableLowercaseCheck && CheckLowercaseStart msg then
    [{ pos := pos, message := lowercaseText, category := [], fixes := [] }]
   else []) ++
  (if !cfg.DisableEnglishCheck && CheckEnglishOnly msg then
    [{ pos := pos, message := englishText, category := [], fixes := [] }]
   else []) ++
  (if !cfg.DisableSpecialCharCheck && CheckSpecialCharsOrEmoji msg then
    [{ pos := pos, message := specialText, category := [], fixes := [] }]
   else []) ++
  (if !cfg.DisableSensitiveCheck then
    (if 0 < cfg.CustomSensitiveKeywords.length then
      (if CheckSensitiveDataWithCustomKeywords msg cfg.CustomSensitiveKeywords
       then [{ pos := pos, message := sensitiveText, category := [],
               fixes := [] }]
       else [])
     else
      (if CheckSensitiveData msg then
        [{ pos := pos, message := sensitiveText, category := [], fixes := [] }]
       else []))
   else [])

/- Call-site extractor, from pkg/analyzer/analyzer.go lines 133-198. -/

/-- Kind of a go/ast BasicLit; the extractor only accepts token.STRING. -/
inductive LitKind where
  | string
  | other
  deriving DecidableEq

/-- The fragment of the go/ast expression grammar the extractor inspects.
A basicLit carries its kind, its raw lexeme (quotes included) and its
position; otherExpr stands for every other expression form. -/
inductive Expr where
  | ident : String → Expr
  | basicLit : LitKind → List Char → Nat → Expr
  | selector : Expr → String → Expr
  | call : Expr → List Expr → Expr
  | otherExpr : Expr

/-- Name set of the slog entry of the logFunctions map (analyzer.go
lines 47-53). -/
def slogFuncs : List String :=
  ["Info", "Error", "Warn", "Debug", "Log"]

/-- The zapMethods set (analyzer.go lines 57-80). -/
def zapMethods : List String :=
  ["Info", "Error", "Warn", "Debug", "Fatal", "Panic", "DPanic",
   "Infof", "Errorf", "Warnf", "Debugf", "Fatalf", "Panicf", "DPanicf",
   "Infow", "Errorw", "Warnw", "Debugw", "Fatalw", "Panicw", "DPanicw"]

/-- Name set of the generic log-package switch (analyzer.go lines 167-169). -/
def logFuncs : List String :=
  ["Info", "Error", "Warn", "Debug", "Fatal", "Panic",
   "Infof", "Errorf", "Warnf", "Debugf", "Fatalf", "Panicf"]

/-- extractStringArg (analyzer.go lines 181-198): for a call named "Log"
with at least three arguments the message is the third argument; otherwise
the first argument is used; in either case the argument must be a string
BasicLit, whose value is trimmed of quote and backtick characters.  The
failure result is the empty string paired with token.NoPos (0). -/
def extractStringArg (args : List Expr) (funcName : String) :
    List Char × Nat :=
  if funcName = "Log" ∧ 3 ≤ args.length then
    match args.get? 2 with
    | some (.basicLit .string v p) => (goTrim v, p)
    | _ => ([], 0)
  else
    match args.get? 0 with
    | some (.basicLit .string v p) => (goTrim v, p)
    | _ => ([], 0)

/-- extractLogMessage (analyzer.go lines 135-177): recognise the logging
call shapes.  The callee must be a selector; an identifier receiver is
matched against the slog set, then the zap set, then the log switch; a call
receiver is matched against the zap set. -/
def extractLogMessage (fn : Expr) (args : List Expr) : List Char × Nat :=
  if args.length = 0 then ([], 0)
  else
    match fn with
    | .selector x funcName =>
      match x with
      | .ident name =>
        if name = "slog" && slogFuncs.contains funcName then
          extractStringArg args funcName
        else if zapMethods.contains funcName then
          extractStringArg args funcName
        else if name = "log" && logFuncs.contains funcName then
          extractStringArg args funcName
        else ([], 0)
      | .call _ _ =>
        if zapMethods.contains funcName then
          extractStringArg args funcName
        else ([], 0)
      | _ => ([], 0)
    | _ => ([], 0)

/-- Depth-first preorder enumeration of the call expressions of an AST, as
delivered by inspector.Preorder with a CallExpr node filter. -/
def preorderCalls : Expr → List Expr
  | .call f args =>
    .call f args :: (preorderCalls f ++ args.attach.flatMap fun a =>
      preorderCalls a.1)
  | .selector x _ => preorderCalls x
  | _ => []
decreasing_by
  · simp
    omega
  · have hm := List.sizeOf_lt_of_mem a.2
    simp
    omega
  · simp
    omega

/-- Body of the run callback (analyzer.go lines 89-101): extract the
message, skip when it is empty, otherwise check and report. -/
def processCall : Expr → List Diagnostic
  | .call fn args =>
    let r := extractLogMessage fn args
    if r.1 = [] then [] else checkAndReport r.1 r.2
  | _ => []

/-- Body of the RunWithConfig callback (analyzer.go lines 115-127). -/
def processCallWithConfig (cfg : Config) : Expr → List Diagnostic
  | .call fn args =>
    let r := extractLogMessage fn args
    if r.1 = [] then [] else checkAndReportWithConfig r.1 r.2 cfg
  | _ => []

/-- The default analyzer entry point run (analyzer.go lines 82-104):
diagnostics of all call expressions, in preorder. -/
def run (root : Expr) : List Diagnostic :=
  (preorderCalls root).flatMap processCall

/-- RunWithConfig (analyzer.go lines 107-131). -/
def RunWithConfig (cfg : Config) (root : Expr) : List Diagnostic :=
  (preorderCalls root).flatMap (processCallWithConfig cfg)

/- Auxiliary definitions used to state the claims. -/

/-- Message and position delivered by a candidate argument slot: the trimmed
lexeme of a string BasicLit, the failure pair otherwise. -/
def argMessage : Option Expr → List Char × Nat
  | some (.basicLit .string v p) => (goTrim v, p)
  | _ => ([], 0)

/-- An expression is a string-literal AST node. -/
def isStringLit : Expr → Bool
  | .basicLit .string _ _ => true
  | _ => false

/-- Name of the selected method of a callee expression; the empty string
for callees that are not selectors (those never match). -/
def calleeName : Expr → String
  | .selector _ s => s
  | _ => ""

/-- The four rule kinds of the analyzer. -/
inductive RuleKind where
  | lowercase
  | english
  | special
  | sensitive
  deriving DecidableEq

/-- Disable flag of a rule kind in a configuration. -/
def kindDisabled (cfg : Config) : RuleKind → Bool
  | .lowercase => cfg.DisableLowercaseCheck
  | .english => cfg.DisableEnglishCheck
  | .special => cfg.DisableSpecialCharCheck
  | .sensitive => cfg.DisableSensitiveCheck

/-- Diagnostic message text of a rule kind. -/
def kindText : RuleKind → List Char
  | .lowercase => lowercaseText
  | .english => englishText
  | .special => specialText
  | .sensitive => sensitiveText

/- General lemmas about the string helpers. -/

theorem goContains_iff_found {s pat : List Char} :
    goContains s pat = true ↔ pat <:+: s := by
  simp only [goContains, List.any_eq_true, List.mem_tails,
    List.isPrefixOf_iff_prefix]
  constructor
  · rintro ⟨t, hts, hpt⟩
    exact List.infix_iff_prefix_suffix.mpr ⟨t, hpt, hts⟩
  · intro h
    obtain ⟨t, hpt, hts⟩ := List.infix_iff_prefix_suffix.mp h
    exact ⟨t, hts, hpt⟩

theorem goContains_false_within {s t pat : List Char}
    (hst : t <:+: s) (h : goContains s pat = false) :
    goContains t pat = false := by
  rcases hc : goContains t pat with _ | _
  · rfl
  · have : goContains s pat = true :=
      goContains_iff_found.mpr ((goContains_iff_found.mp hc).trans hst)
    rw [h] at this
    exact absurd this (by simp)

theorem mem_of_goContains {s pat : List Char} (h : goContains s pat = true)
    {c : Char} (hc : c ∈ pat) : c ∈ s :=
  (goContains_iff_found.mp h).subset hc

theorem goContains_nil_of_ne {k : List Char} (h : k ≠ []) :
    goContains [] k = false := by
  rcases k with _ | ⟨c, t⟩
  · exact absurd rfl h
  · rfl

theorem dropWhile_eq_self_of_head {p : Char → Bool} {l : List Char}
    (h : ∀ c, l.head? = some c → p c = false) : l.dropWhile p = l := by
  rcases l with _ | ⟨a, t⟩
  · rfl
  · rw [List.dropWhile_cons, h a rfl]
    simp

theorem head?_dropWhile {p : Char → Bool} {l : List Char} {c : Char}
    (h : (l.dropWhile p).head? = some c) : p c = false := by
  induction l with
  | nil => simp at h
  | cons a t ih =>
    rw [List.dropWhile_cons] at h
    rcases hp : p a with _ | _
    · rw [hp] at h
      simp at h
      exact h ▸ hp
    · rw [hp] at h
      simp at h
      exact ih h

/- Lemmas about the repair function. -/

theorem length_replaceEllipsis_le (s : List Char) :
    (replaceEllipsis s).length ≤ s.length := by
  induction s using replaceEllipsis.induct with
  | case1 => simp [replaceEllipsis]
  | case2 c => simp [replaceEllipsis]
  | case3 c1 c2 => simp [replaceEllipsis]
  | case4 c1 c2 c3 rest h ih =>
    simp only [replaceEllipsis, if_pos h, List.length_cons]
    omega
  | case5 c1 c2 c3 rest h ih =>
    simp only [replaceEllipsis, if_neg h, List.length_cons]
    simp only [List.length_cons] at ih
    omega

theorem mem_replaceEllipsis {s : List Char} {c : Char}
    (h : c ∈ replaceEllipsis s) : c ∈ s := by
  induction s using replaceEllipsis.induct with
  | case1 => simp [replaceEllipsis] at h
  | case2 c0 =>
    simp [replaceEllipsis] at h
    simp [h]
  | case3 c1 c2 =>
    simp [replaceEllipsis] at h
    rcases h with h | h <;> simp [h]
  | case4 c1 c2 c3 rest hd ih =>
    rw [replaceEllipsis, if_pos hd] at h
    rcases List.mem_cons.mp h with h | h
    · rw [h, hd.1]
      simp
    · simp [ih h]
  | case5 c1 c2 c3 rest hd ih =>
    rw [replaceEllipsis, if_neg hd] at h
    rcases List.mem_cons.mp h with h | h
    · simp [h]
    · rcases List.mem_cons.mp (ih h) with h' | h'
      · simp [h']
      · simp [List.mem_cons.mp h']

theorem dotsPat_prefix_shape {l : List Char} (h : dotsPat <+: l) :
    ∃ rest, l = '.' :: '.' :: '.' :: rest := by
  obtain ⟨t, ht⟩ := h
  exact ⟨t, ht.symm⟩

theorem length_replaceEllipsis_lt {s : List Char}
    (h : goContains s dotsPat = true) :
    (replaceEllipsis s).length < s.length := by
  induction s using replaceEllipsis.induct with
  | case1 => exact absurd h (by decide)
  | case2 c =>
    have hinf := goContains_iff_found.mp h
    have := hinf.length_le
    simp [dotsPat] at this
  | case3 c1 c2 =>
    have hinf := goContains_iff_found.mp h
    have := hinf.length_le
    simp [dotsPat] at this
  | case4 c1 c2 c3 rest hd ih =>
    rw [replaceEllipsis, if_pos hd]
    have := length_replaceEllipsis_le rest
    simp only [List.length_cons]
    omega
  | case5 c1 c2 c3 rest hd ih =>
    rw [replaceEllipsis, if_neg hd]
    have htail : goContains (c2 :: c3 :: rest) dotsPat = true := by
      have hinf := goContains_iff_found.mp h
      rcases List.infix_cons_iff.mp hinf with hp | hi
      · obtain ⟨r, hr⟩ := dotsPat_prefix_shape hp
        rw [List.cons.injEq] at hr
        rcases hr with ⟨h1, hr⟩
        rw [List.cons.injEq] at hr
        rcases hr with ⟨h2, hr⟩
        rw [List.cons.injEq] at hr
        exact absurd ⟨h1, h2, hr.1⟩ hd
      · exact goContains_iff_found.mpr hi
    have := ih htail
    simp only [List.length_cons] at this ⊢
    omega

theorem collapseDotsAux_no_dots (fuel : Nat) (s : List Char)
    (h : s.length ≤ fuel) :
    goContains (collapseDotsAux fuel s) dotsPat = false := by
  induction fuel generalizing s with
  | zero =>
    have : s = [] := List.length_eq_zero.mp (Nat.le_zero.mp h)
    rw [this]
    decide
  | succ n ih =>
    rw [collapseDotsAux]
    rcases hc : goContains s dotsPat with _ | _
    · simp [hc]
    · simp only [if_pos rfl]
      have hlt := length_replaceEllipsis_lt hc
      exact ih (replaceEllipsis s) (by omega)

theorem mem_collapseDotsAux {fuel : Nat} {s : List Char} {c : Char}
    (h : c ∈ collapseDotsAux fuel s) : c ∈ s := by
  induction fuel generalizing s with
  | zero => exact h
  | succ n ih =>
    rw [collapseDotsAux] at h
    rcases hc : goContains s dotsPat with _ | _
    · rw [hc] at h
      simp at h
      exact h
    · rw [hc] at h
      simp only [if_pos rfl] at h
      exact mem_replaceEllipsis (ih h)

theorem collapseDotsAux_eq_of_no {fuel : Nat} {s : List Char}
    (h : goContains s dotsPat = false) : collapseDotsAux fuel s = s := by
  cases fuel with
  | zero => rfl
  | succ n =>
    rw [collapseDotsAux, h]
    simp

theorem goContains_collapseDots (s : List Char) :
    goContains (collapseDots s) dotsPat = false :=
  collapseDotsAux_no_dots s.length s (Nat.le_refl _)

theorem mem_collapseDots {s : List Char} {c : Char}
    (h : c ∈ collapseDots s) : c ∈ s :=
  mem_collapseDotsAux h

/- Lemmas about trimSpace. -/

theorem trimSpace_within (s : List Char) : trimSpace s <:+: s := by
  unfold trimSpace
  have h1 : s.dropWhile goIsSpace <:+ s := List.dropWhile_suffix goIsSpace
  have h2 : (s.dropWhile goIsSpace).reverse.dropWhile goIsSpace <:+
      (s.dropWhile goIsSpace).reverse := List.dropWhile_suffix goIsSpace
  have h3 : ((s.dropWhile goIsSpace).reverse.dropWhile goIsSpace).reverse <+:
      (s.dropWhile goIsSpace) := by
    have := List.reverse_prefix.mpr h2
    simpa using this
  exact h3.isInfix.trans h1.isInfix

theorem mem_trimSpace {s : List Char} {c : Char} (h : c ∈ trimSpace s) :
    c ∈ s :=
  (trimSpace_within s).subset h

theorem trimSpace_head {s : List Char} {c : Char}
    (h : (trimSpace s).head? = some c) : goIsSpace c = false := by
  unfold trimSpace at h
  set u := s.dropWhile goIsSpace with hu
  set w := u.reverse.dropWhile goIsSpace with hw
  rcases hwe : w with _ | ⟨a, t⟩
  · rw [hwe] at h
    simp at h
  · have hsuffix : w <:+ u.reverse := List.dropWhile_suffix goIsSpace
    obtain ⟨pre, hpre⟩ := hsuffix
    have hlast : w.reverse.head? = w.getLast? := List.head?_reverse w
    have hwne : w ≠ [] := by rw [hwe]; simp
    have hgl : w.getLast? = u.reverse.getLast? := by
      rw [← hpre]
      exact (List.getLast?_append_of_ne_nil pre hwne).symm
    have hur : u.reverse.getLast? = u.head? := List.getLast?_reverse u
    rw [hlast, hgl, hur] at h
    exact head?_dropWhile h

theorem trimSpace_getLast {s : List Char} {c : Char}
    (h : (trimSpace s).getLast? = some c) : goIsSpace c = false := by
  unfold trimSpace at h
  rw [List.getLast?_reverse] at h
  exact head?_dropWhile h

theorem trimSpace_eq_self {s : List Char}
    (h1 : ∀ c, s.head? = some c → goIsSpace c = false)
    (h2 : ∀ c, s.getLast? = some c → goIsSpace c = false) :
    trimSpace s = s := by
  unfold trimSpace
  rw [dropWhile_eq_self_of_head h1]
  have : s.reverse.dropWhile goIsSpace = s.reverse := by
    apply dropWhile_eq_self_of_head
    intro c hc
    rw [List.head?_reverse] at hc
    exact h2 c hc
  rw [this, List.reverse_reverse]

/- Properties of the repair cleanSpecialChars. -/

theorem mem_cleanSpecialChars_keep {m : List Char} {c : Char}
    (h : c ∈ cleanSpecialChars m) :
    (!isEmoji c && !specialChars.contains c && (goIsPrint c || c == ' ')) =
      true := by
  unfold cleanSpecialChars at h
  have h1 : c ∈ collapseDots (filterChars m) := mem_trimSpace h
  have h2 : c ∈ filterChars m := mem_collapseDots h1
  exact (List.mem_filter.mp h2).2

theorem cleanSpecialChars_no_dots (m : List Char) :
    goContains (cleanSpecialChars m) dotsPat = false := by
  unfold cleanSpecialChars
  exact goContains_false_within (trimSpace_within _)
    (goContains_collapseDots _)

theorem cleanSpecialChars_idem (m : List Char) :
    cleanSpecialChars (cleanSpecialChars m) = cleanSpecialChars m := by
  have hfilter : filterChars (cleanSpecialChars m) = cleanSpecialChars m :=
    List.filter_eq_self.mpr fun c hc => mem_cleanSpecialChars_keep hc
  have hcollapse : collapseDots (cleanSpecialChars m) = cleanSpecialChars m :=
    collapseDotsAux_eq_of_no (cleanSpecialChars_no_dots m)
  have htrim : trimSpace (cleanSpecialChars m) = cleanSpecialChars m := by
    apply trimSpace_eq_self
    · intro c hc
      unfold cleanSpecialChars at hc
      exact trimSpace_head hc
    · intro c hc
      unfold cleanSpecialChars at hc
      exact trimSpace_getLast hc
  have he : cleanSpecialChars (cleanSpecialChars m) =
      trimSpace (collapseDots (filterChars (cleanSpecialChars m))) := rfl
  rw [he, hfilter, hcollapse, htrim]

theorem checkSpecial_clean_false {m : List Char}
    (hqq : goContains (cleanSpecialChars m) quesQuesPat = false) :
    CheckSpecialCharsOrEmoji (cleanSpecialChars m) = false := by
  have hany : ∀ x ∈ cleanSpecialChars m, isEmoji x = false ∧
      x ∉ specialChars := by
    intro c hc
    have hk := mem_cleanSpecialChars_keep hc
    simp only [Bool.and_eq_true, Bool.not_eq_true'] at hk
    exact ⟨hk.1.1, by simpa using hk.1.2⟩
  have hbb : goContains (cleanSpecialChars m) bangBangPat = false := by
    rcases hc : goContains (cleanSpecialChars m) bangBangPat with _ | _
    · rfl
    · have hmem : '!' ∈ cleanSpecialChars m :=
        mem_of_goContains hc (by decide)
      have hk := mem_cleanSpecialChars_keep hmem
      simp only [Bool.and_eq_true, Bool.not_eq_true'] at hk
      have : specialChars.contains '!' = true := by decide
      rw [hk.1.2] at this
      exact absurd this (by simp)
  have hdots := cleanSpecialChars_no_dots m
  simp only [CheckSpecialCharsOrEmoji, hbb, hqq, hdots, Bool.or_false]
  simp only [List.any_eq_false, Bool.or_eq_true, not_or]
  intro c hc
  have := hany c hc
  constructor
  · simp [this.1]
  · simpa using this.2

/- Properties of the extractor used by the claims. -/

theorem goTrim_wrap {q : Char} {inner : List Char}
    (hq : isQuoteChar q = true)
    (h1 : ∀ c, inner.head? = some c → isQuoteChar c = false)
    (h2 : ∀ c, inner.getLast? = some c → isQuoteChar c = false) :
    goTrim (q :: (inner ++ [q])) = inner := by
  unfold goTrim
  rw [List.dropWhile_cons, hq]
  simp only [if_true]
  rcases inner with _ | ⟨c, t⟩
  · simp only [List.nil_append]
    rw [List.dropWhile_cons, hq]
    simp
  · have hdrop : (c :: t ++ [q]).dropWhile isQuoteChar = c :: t ++ [q] := by
      apply dropWhile_eq_self_of_head
      intro d hd
      simp only [List.cons_append, List.head?_cons, Option.some.injEq] at hd
      exact hd ▸ h1 c rfl
    rw [hdrop]
    have hrev : (c :: t ++ [q]).reverse = q :: (c :: t).reverse := by
      simp
    rw [hrev, List.dropWhile_cons, hq]
    simp only [if_true]
    have hrevdrop : (c :: t).reverse.dropWhile isQuoteChar =
        (c :: t).reverse := by
      apply dropWhile_eq_self_of_head
      intro d hd
      rw [List.head?_reverse] at hd
      exact h2 d hd
    rw [hrevdrop, List.reverse_reverse]

theorem extractStringArg_nonlit {args : List Expr} {name : String} {a : Expr}
    (h1 : args.get? (if name = "Log" then 2 else 0) = some a)
    (h2 : isStringLit a = false) :
    extractStringArg args name = ([], 0) := by
  by_cases hn : name = "Log"
  · rw [hn, if_pos rfl] at h1
    have hlen : 3 ≤ args.length := by
      obtain ⟨hlt, _⟩ := List.get?_eq_some.mp h1
      omega
    rw [extractStringArg, if_pos ⟨hn, hlen⟩, h1]
    rcases a with s | ⟨k, v, p⟩ | ⟨x, s⟩ | ⟨f, as⟩ | _
    · rfl
    · rcases k with _ | _
      · exact absurd h2 (by simp [isStringLit])
      · rfl
    · rfl
    · rfl
    · rfl
  · rw [if_neg hn] at h1
    have hcond : ¬(name = "Log" ∧ 3 ≤ args.length) := fun h => hn h.1
    rw [extractStringArg, if_neg hcond, h1]
    rcases a with s | ⟨k, v, p⟩ | ⟨x, s⟩ | ⟨f, as⟩ | _
    · rfl
    · rcases k with _ | _
      · exact absurd h2 (by simp [isStringLit])
      · rfl
    · rfl
    · rfl
    · rfl

theorem extractLogMessage_fst_nil {fn : Expr} {args : List Expr}
    (h : (extractStringArg args (calleeName fn)).1 = []) :
    (extractLogMessage fn args).1 = [] := by
  by_cases hz : args.length = 0
  · simp [extractLogMessage, hz]
  · rcases fn with s | ⟨k, v, p⟩ | ⟨x, funcName⟩ | ⟨f, as⟩ | _
    · simp [extractLogMessage, hz]
    · simp [extractLogMessage, hz]
    · have hce : calleeName (.selector x funcName) = funcName := rfl
      rw [hce] at h
      rcases x with s' | ⟨k', v', p'⟩ | ⟨x', s'⟩ | ⟨f', as'⟩ | _
      · simp only [extractLogMessage, if_neg hz]
        split
        · exact h
        · split
          · exact h
          · split
            · exact h
            · rfl
      · simp [extractLogMessage, hz]
      · simp [extractLogMessage, hz]
      · simp only [extractLogMessage, if_neg hz]
        split
        · exact h
        · rfl
      · simp [extractLogMessage, hz]
    · simp [extractLogMessage, hz]
    · simp [extractLogMessage, hz]

theorem processCall_eq_nil {fn : Expr} {args : List Expr}
    (h : (extractLogMessage fn args).1 = []) :
    processCall (.call fn args) = [] := by
  simp only [processCall]
  rw [if_pos h]

/- Lemmas relating run to RunWithConfig under the zero configuration. -/

theorem proj_checkAndReport (msg : List Char) (pos : Nat) :
    (checkAndReport msg pos).map (fun d => (d.pos, d.message)) =
    (checkAndReportWithConfig msg pos zeroConfig).map
      (fun d => (d.pos, d.message)) := by
  rcases h1 : CheckLowercaseStart msg with _ | _ <;>
  rcases h2 : CheckEnglishOnly msg with _ | _ <;>
  rcases h3 : CheckSpecialCharsOrEmoji msg with _ | _ <;>
  rcases h4 : CheckSensitiveData msg with _ | _ <;>
    simp [checkAndReport, checkAndReportWithConfig, zeroConfig, h1, h2, h3, h4]

theorem proj_processCall (e : Expr) :
    (processCall e).map (fun d => (d.pos, d.message)) =
    (processCallWithConfig zeroConfig e).map (fun d => (d.pos, d.message)) := by
  rcases e with s | ⟨k, v, p⟩ | ⟨x, s⟩ | ⟨fn, args⟩ | _
  · rfl
  · rfl
  · rfl
  · simp only [processCall, processCallWithConfig]
    by_cases h : (extractLogMessage fn args).1 = []
    · rw [if_pos h, if_pos h]
    · rw [if_neg h, if_neg h]
      exact proj_checkAndReport _ _
  · rfl

/- Membership shape of the diagnostics of checkAndReportWithConfig. -/

theorem mem_checkAndReportWithConfig {d : Diagnostic} {msg : List Char}
    {pos : Nat} {cfg : Config}
    (h : d ∈ checkAndReportWithConfig msg pos cfg) :
    (cfg.DisableLowercaseCheck = false ∧ d.message = lowercaseText) ∨
    (cfg.DisableEnglishCheck = false ∧ d.message = englishText) ∨
    (cfg.DisableSpecialCharCheck = false ∧ d.message = specialText) ∨
    (cfg.DisableSensitiveCheck = false ∧ d.message = sensitiveText) := by
  simp only [checkAndReportWithConfig, List.mem_append] at h
  rcases h with ((h | h) | h) | h
  · left
    split at h
    · rename_i hc
      simp only [Bool.and_eq_true, Bool.not_eq_true'] at hc
      have hd := List.mem_singleton.mp h
      exact ⟨hc.1, by rw [hd]⟩
    · simp at h
  · right; left
    split at h
    · rename_i hc
      simp only [Bool.and_eq_true, Bool.not_eq_true'] at hc
      have hd := List.mem_singleton.mp h
      exact ⟨hc.1, by rw [hd]⟩
    · simp at h
  · right; right; left
    split at h
    · rename_i hc
      simp only [Bool.and_eq_true, Bool.not_eq_true'] at hc
      have hd := List.mem_singleton.mp h
      exact ⟨hc.1, by rw [hd]⟩
    · simp at h
  · right; right; right
    split at h
    · rename_i hc
      simp only [Bool.not_eq_true'] at hc
      refine ⟨hc, ?_⟩
      split at h
      · split at h
        · have hd := List.mem_singleton.mp h
          rw [hd]
        · simp at h
      · split at h
        · have hd := List.mem_singleton.mp h
          rw [hd]
        · simp at h
    · simp at h

/- Claim theorems. -/

/-- C1: the claim states that CheckLowercaseStart is violated only when the
first byte of the message is an ASCII uppercase letter, and that lead bytes
of multi-byte UTF-8 sequences never violate.  The code casts the first byte
to a rune and asks unicode.IsUpper, which is also true on the Latin-1 range
0xC0-0xD6, 0xD8-0xDE; the message "запуск сервера" starts with the lead
byte 0xD0, which is not in A-Z, yet the predicate reports a violation. -/
theorem claim_C1_first_byte_bug :
    CheckLowercaseStart "запуск сервера".toList = true ∧
    firstByte "запуск сервера".toList = 0xD0 ∧
    ¬(65 ≤ firstByte "запуск сервера".toList ∧
      firstByte "запуск сервера".toList ≤ 90) := by
  decide

/-- C2 counterexample: the claim states that one application of
cleanSpecialChars always yields a string on which CheckSpecialCharsOrEmoji
returns not violated.  The repair does not remove question marks, so
"a??" is repaired to itself and still violates the predicate. -/
theorem claim_C2_counterexample :
    cleanSpecialChars "a??".toList = "a??".toList ∧
    CheckSpecialCharsOrEmoji (cleanSpecialChars "a??".toList) = true := by
  decide

/-- C2 amended: one application of cleanSpecialChars is idempotent, and its
result passes CheckSpecialCharsOrEmoji provided the cleaned string does not
contain the surviving pattern "??". -/
theorem claim_C2_amended (m : List Char)
    (h : goContains (cleanSpecialChars m) quesQuesPat = false) :
    cleanSpecialChars (cleanSpecialChars m) = cleanSpecialChars m ∧
    CheckSpecialCharsOrEmoji (cleanSpecialChars m) = false :=
  ⟨cleanSpecialChars_idem m, checkSpecial_clean_false h⟩

/-- C2 witness: the amended claim applied to the concrete message
"Hey!! wait...  ". -/
theorem claim_C2_witness :
    goContains (cleanSpecialChars "Hey!! wait...  ".toList) quesQuesPat =
      false ∧
    cleanSpecialChars (cleanSpecialChars "Hey!! wait...  ".toList) =
      cleanSpecialChars "Hey!! wait...  ".toList ∧
    CheckSpecialCharsOrEmoji (cleanSpecialChars "Hey!! wait...  ".toList) =
      false := by
  have h : goContains (cleanSpecialChars "Hey!! wait...  ".toList)
      quesQuesPat = false := by decide
  exact ⟨h, (claim_C2_amended _ h).1, (claim_C2_amended _ h).2⟩

/-- C3 counterexample: the claim includes auth and authorization among the
built-in sensitive keywords, so the message "auth" ought to be violated;
the built-in list of rules.go omits both, and CheckSensitiveData returns
not violated although the lowercased message contains "auth". -/
theorem claim_C3_counterexample :
    CheckSensitiveData "auth".toList = false ∧
    goContains (goToLower "auth".toList) "auth".toList = true := by
  decide

/-- C3 amended: CheckSensitiveData is violated exactly when the lowercased
message contains one of the 21 built-in keywords; auth and authorization
are not in the list. -/
theorem claim_C3_amended (m : List Char) :
    CheckSensitiveData m = true ↔
      ∃ k ∈ (["password".toList, "passwd".toList, "pwd".toList,
        "token".toList, "access_token".toList, "refresh_token".toList,
        "api_key".toList, "apikey".toList, "api-key".toList,
        "secret".toList, "secret_key".toList, "credential".toList,
        "credentials".toList, "private_key".toList, "privatekey".toList,
        "ssn".toList, "social_security".toList, "credit_card".toList,
        "creditcard".toList, "cvv".toList, "pin".toList] :
        List (List Char)),
        goContains (goToLower m) k = true := by
  unfold CheckSensitiveData sensitiveKeywords
  exact List.any_eq_true

/-- C4 counterexample: the claim states that for a matched call named "Log"
the message is taken from argument index 2.  A slog.Log call with a single
string-literal argument has no argument at index 2, yet the extractor
returns the literal at index 0. -/
theorem claim_C4_counterexample :
    extractLogMessage (.selector (.ident "slog") "Log")
      [.basicLit .string "\"Boom\"".toList 5] = ("Boom".toList, 5) ∧
    ([Expr.basicLit .string "\"Boom\"".toList 5].get? 2 = none) := by
  constructor
  · decide
  · rfl

/-- C4 amended: the message is taken from argument index 2 exactly when the
callee name is "Log" and the call has at least three arguments; every other
matched call, including a "Log" call with fewer than three arguments, takes
the message from argument index 0. -/
theorem claim_C4_amended (args : List Expr) (funcName : String) :
    extractStringArg args funcName =
      if funcName = "Log" ∧ 3 ≤ args.length then argMessage (args.get? 2)
      else argMessage (args.get? 0) := by
  by_cases h : funcName = "Log" ∧ 3 ≤ args.length
  · rw [extractStringArg, if_pos h, if_pos h]
    cases ho : args.get? 2 with
    | none => rfl
    | some a =>
      rcases a with s | ⟨k, v, p⟩ | ⟨x, s⟩ | ⟨f, as⟩ | _
      · rfl
      · rcases k with _ | _ <;> rfl
      · rfl
      · rfl
      · rfl
  · rw [extractStringArg, if_neg h, if_neg h]
    cases ho : args.get? 0 with
    | none => rfl
    | some a =>
      rcases a with s | ⟨k, v, p⟩ | ⟨x, s⟩ | ⟨f, as⟩ | _
      · rfl
      · rcases k with _ | _ <;> rfl
      · rfl
      · rfl
      · rfl

/-- C5 counterexample: the claim states that in checkAndReportWithConfig a
LowercaseStart violation also carries a suggested edit; the function uses
pass.Reportf, so the emitted diagnostic has no fixes at all. -/
theorem claim_C5_counterexample :
    checkAndReportWithConfig "Abc".toList 10 zeroConfig =
      [{ pos := 10, message := lowercaseText, category := [],
         fixes := [] }] := by
  decide

/-- C5 amended: checkAndReport emits the LowercaseStart diagnostic with the
stated message text and the suggested edit spanning
pos .. pos+len(msg)+2 whose replacement is the quoted lowercased message;
checkAndReportWithConfig emits the same message text but no suggested
edit. -/
theorem claim_C5_amended (msg : List Char) (pos : Nat) (cfg : Config)
    (h : CheckLowercaseStart msg = true)
    (hc : cfg.DisableLowercaseCheck = false) :
    (checkAndReport msg pos).head? = some
      { pos := pos, message := lowercaseText, category := categoryText,
        fixes := [{ message := "convert first letter to lowercase".toList,
                    edits := [{ pos := pos,
                                stop := pos + (strBytes msg).length + 2,
                                newText := 34 :: lowerFirstBytes (strBytes msg)
                                  ++ [34] }] }] } ∧
    (checkAndReportWithConfig msg pos cfg).head? = some
      { pos := pos, message := lowercaseText, category := [],
        fixes := [] } := by
  constructor
  · simp [checkAndReport, h]
  · simp [checkAndReportWithConfig, h, hc]

/-- C5 witness: the amended claim applied to the message "Abc" at
position 10 under the zero configuration. -/
theorem claim_C5_witness :
    (checkAndReport "Abc".toList 10).head? = some
      { pos := 10, message := lowercaseText, category := categoryText,
        fixes := [{ message := "convert first letter to lowercase".toList,
                    edits := [{ pos := 10,
                                stop := 10 + (strBytes "Abc".toList).length + 2,
                                newText := 34 ::
                                  lowerFirstBytes (strBytes "Abc".toList)
                                  ++ [34] }] }] } ∧
    (checkAndReportWithConfig "Abc".toList 10 zeroConfig).head? = some
      { pos := 10, message := lowercaseText, category := [], fixes := [] } :=
  claim_C5_amended "Abc".toList 10 zeroConfig (by decide) rfl

/-- C6 counterexample: the claim states the extractor strips exactly one
surrounding pair of quote characters.  strings.Trim removes every leading
and trailing quote or backtick: on the raw-string lexeme whose inner text
is two double quotes, the extractor returns the empty string instead of
the two-character inner text. -/
theorem claim_C6_counterexample :
    extractStringArg
      [.basicLit .string [Char.ofNat 0x60, '\"', '\"', Char.ofNat 0x60] 7]
      "Info" = ([], 7) ∧
    extractStringArg
      [.basicLit .string [Char.ofNat 0x60, '\"', '\"', Char.ofNat 0x60] 7]
      "Info" ≠ (['\"', '\"'], 7) := by
  decide

/-- C6 amended: the extractor yields the raw lexeme with all leading and
all trailing quote or backtick characters removed; when the inner text
neither begins nor ends with a quote or backtick character this equals
the inner text. -/
theorem claim_C6_amended (q : Char) (inner : List Char) (p : Nat)
    (name : String) (hq : isQuoteChar q = true)
    (h1 : ∀ c, inner.head? = some c → isQuoteChar c = false)
    (h2 : ∀ c, inner.getLast? = some c → isQuoteChar c = false) :
    extractStringArg [.basicLit .string (q :: (inner ++ [q])) p] name =
      (inner, p) := by
  have hcond : ¬(name = "Log" ∧
      3 ≤ ([Expr.basicLit .string (q :: (inner ++ [q])) p] :
        List Expr).length) := by
    rintro ⟨-, hlen⟩
    simp at hlen
  rw [extractStringArg, if_neg hcond]
  show (goTrim (q :: (inner ++ [q])), p) = (inner, p)
  rw [goTrim_wrap hq h1 h2]

/-- C6 witness: the amended claim applied to the double-quoted literal with
inner text "hi" at position 3. -/
theorem claim_C6_witness :
    extractStringArg [.basicLit .string ('\"' :: ("hi".toList ++ ['\"'])) 3]
      "Info" = ("hi".toList, 3) := by
  apply claim_C6_amended
  · decide
  · intro c hc
    have he : ("hi".toList).head? = some 'h' := rfl
    rw [he] at hc
    injection hc with hce
    rw [← hce]
    decide
  · intro c hc
    have he : ("hi".toList).getLast? = some 'i' := rfl
    rw [he] at hc
    injection hc with hce
    rw [← hce]
    decide

/-- C7 counterexample: the claim states every rule predicate, including
CheckSensitiveDataWithCustomKeywords for any keyword list, returns not
violated on the empty string.  With a custom list containing the empty
keyword, strings.Contains of the empty string in the empty string is true
and the predicate reports a violation. -/
theorem claim_C7_counterexample :
    CheckSensitiveDataWithCustomKeywords [] [[]] = true := by
  decide

/-- C7 amended: the four built-in rule predicates return not violated on
the empty string, CheckSensitiveDataWithCustomKeywords does so for every
list of non-empty custom keywords, and a call whose extracted message is
empty produces no diagnostics. -/
theorem claim_C7_amended (ks : List (List Char)) (hks : ∀ k ∈ ks, k ≠ [])
    (fn : Expr) (args : List Expr)
    (hm : (extractLogMessage fn args).1 = []) :
    CheckLowercaseStart [] = false ∧ CheckEnglishOnly [] = false ∧
    CheckSpecialCharsOrEmoji [] = false ∧ CheckSensitiveData [] = false ∧
    CheckSensitiveDataWithCustomKeywords [] ks = false ∧
    processCall (.call fn args) = [] := by
  refine ⟨by decide, by decide, by decide, by decide, ?_,
    processCall_eq_nil hm⟩
  unfold CheckSensitiveDataWithCustomKeywords
  rw [show CheckSensitiveData [] = false from by decide]
  simp only [Bool.false_or]
  apply List.any_eq_false.mpr
  intro k hk
  have hne : goToLower k ≠ [] := by
    intro hcon
    exact hks k hk (List.map_eq_nil_iff.mp hcon)
  show ¬(goContains (goToLower []) (goToLower k) = true)
  rw [show goToLower ([] : List Char) = [] from rfl,
    goContains_nil_of_ne hne]
  simp

/-- C7 witness: the amended claim applied to the one-element custom list
with keyword "x" and to a call with a non-literal message argument. -/
theorem claim_C7_witness :
    CheckSensitiveDataWithCustomKeywords [] [['x']] = false ∧
    processCall (.call (.selector (.ident "logger") "Info")
      [.ident "m"]) = [] := by
  have h := claim_C7_amended [['x']] (by decide)
    (.selector (.ident "logger") "Info") [.ident "m"] (by decide)
  exact ⟨h.2.2.2.2.1, h.2.2.2.2.2⟩

/-- C8: whenever the argument at the chosen message index (2 for a callee
named "Log", 0 otherwise) exists and is not a string-literal AST node, the
extractor yields no match and the pass emits no diagnostic for that
call. -/
theorem claim_C8_nonliteral (fn : Expr) (args : List Expr) (a : Expr)
    (h1 : args.get? (if calleeName fn = "Log" then 2 else 0) = some a)
    (h2 : isStringLit a = false) :
    extractStringArg args (calleeName fn) = ([], 0) ∧
    processCall (.call fn args) = [] := by
  have hx := extractStringArg_nonlit h1 h2
  refine ⟨hx, processCall_eq_nil (extractLogMessage_fst_nil ?_)⟩
  rw [hx]

/-- C8 witness: the call logger.Info(msgVar) with a non-literal argument
yields no match and no diagnostics. -/
theorem claim_C8_witness :
    extractStringArg [.ident "msgVar"]
      (calleeName (.selector (.ident "logger") "Info")) = ([], 0) ∧
    processCall (.call (.selector (.ident "logger") "Info")
      [.ident "msgVar"]) = [] :=
  claim_C8_nonliteral (.selector (.ident "logger") "Info") [.ident "msgVar"]
    (.ident "msgVar") rfl rfl

/-- C9: for every configuration and every extracted message and position,
when a rule kind's disable flag is set, checkAndReportWithConfig emits no
diagnostic carrying that rule kind's message text. -/
theorem claim_C9_disable_mask (cfg : Config) (msg : List Char) (pos : Nat)
    (k : RuleKind) (h : kindDisabled cfg k = true) :
    (checkAndReportWithConfig msg pos cfg).all
      (fun d => !(d.message == kindText k)) = true := by
  rw [List.all_eq_true]
  intro d hd
  have hm := mem_checkAndReportWithConfig hd
  rcases k with _ | _ | _ | _ <;> simp only [kindDisabled] at h <;>
    rcases hm with ⟨hf, ht⟩ | ⟨hf, ht⟩ | ⟨hf, ht⟩ | ⟨hf, ht⟩ <;>
    first
      | (rw [hf] at h; exact absurd h (by simp))
      | (simp only [kindText]; rw [ht]; decide)

/-- C9 witness: the claim applied to a configuration disabling the
LowercaseStart rule, with the message "Abc". -/
theorem claim_C9_witness :
    (checkAndReportWithConfig "Abc".toList 0
      ⟨true, false, false, false, []⟩).all
      (fun d => !(d.message == kindText .lowercase)) = true :=
  claim_C9_disable_mask ⟨true, false, false, false, []⟩ "Abc".toList 0
    .lowercase rfl

/-- C10: for every input AST, the default entry point run and RunWithConfig
under the zero-value configuration emit the same sequence of
(position, message text) pairs. -/
theorem claim_C10_run_equiv (root : Expr) :
    (run root).map (fun d => (d.pos, d.message)) =
    (RunWithConfig zeroConfig root).map (fun d => (d.pos, d.message)) := by
  unfold run RunWithConfig
  generalize preorderCalls root = l
  induction l with
  | nil => rfl
  | cons a t ih =>
    simp only [List.flatMap_cons, List.map_append, ih, proj_processCall a]

end Logchecklint
